import Mathlib

/-!
Verification of the email-extractor pipeline.

The development shallowly embeds the two source files `email_extractor.py`
and `email_extractor_cli.py`.  Strings are modelled as `List Char`; the
Python regular expression
  \b[A-Za-z0-9._%+-]+@[A-Za-z0-9.-]+\.[A-Z|a-z]{2,}\b
is embedded as an executable backtracking matcher with Python `re`
semantics (leftmost match, greedy quantifiers with backtracking, ASCII
word boundaries), and `re.findall` as a left-to-right scan that resumes
after each non-empty match.
-/

namespace EmailExtractor

/-- Characters of the local-part class of the pattern: A-Z, a-z, 0-9 and
the literals dot, underscore, percent, plus, hyphen. -/
def isLocalChar (c : Char) : Bool :=
  ('A' ≤ c && c ≤ 'Z') || ('a' ≤ c && c ≤ 'z') || ('0' ≤ c && c ≤ '9') ||
    c == '.' || c == '_' || c == '%' || c == '+' || c == '-'

/-- Characters of the domain class of the pattern: A-Z, a-z, 0-9, dot,
hyphen. -/
def isDomainChar (c : Char) : Bool :=
  ('A' ≤ c && c ≤ 'Z') || ('a' ≤ c && c ≤ 'z') || ('0' ≤ c && c ≤ '9') ||
    c == '.' || c == '-'

/-- Characters of the top-level-domain class of the pattern.  The source
writes the class as A-Z, bar, a-z, so the literal bar character is a
member. -/
def isTldChar (c : Char) : Bool :=
  ('A' ≤ c && c ≤ 'Z') || ('a' ≤ c && c ≤ 'z') || c == '|'

/-- Python regex word characters over ASCII input: A-Z, a-z, 0-9,
underscore. -/
def isWordChar (c : Char) : Bool :=
  ('A' ≤ c && c ≤ 'Z') || ('a' ≤ c && c ≤ 'z') || ('0' ≤ c && c ≤ '9') ||
    c == '_'

/-- Word-character test on an optional character; the absent character at
either end of the input counts as a non-word character. -/
def isWordOpt : Option Char → Bool
  | none => false
  | some c => isWordChar c

/-- A word boundary sits between two adjacent positions exactly when one
side is a word character and the other is not. -/
def boundary (a b : Option Char) : Bool := isWordOpt a != isWordOpt b

/-- Backtracking for the trailing greedy piece of the pattern (the
top-level-domain class repeated at least twice, followed by a word
boundary).  `rrun` is the still-unconsumed candidate run in reverse;
`rest` is the input after the candidate.  Lengths are tried from longest
to shortest, as the greedy quantifier does. -/
def tldGo : List Char → List Char → Option (List Char × List Char)
  | [], _ => none
  | c :: rrun, rest =>
    if decide (2 ≤ rrun.length + 1) && (isWordChar c != isWordOpt rest.head?) then
      some ((c :: rrun).reverse, rest)
    else tldGo rrun (c :: rest)

/-- Try the trailing top-level-domain piece of the pattern against `s`:
take the maximal run of class characters, then shrink it until the
length bound and the final word boundary hold. -/
def tldTry (s : List Char) : Option (List Char × List Char) :=
  tldGo (s.takeWhile isTldChar).reverse (s.dropWhile isTldChar)

/-- Backtracking over the split of the domain run into the one-or-more
domain part, the literal dot and the top-level domain.  `racc` holds the
input after the scan point (in order), `rdom` the not-yet-scanned part of
the maximal domain run in reverse, `rest3` the input after that run.
Scanning `rdom` left to right tries the dots of the run from rightmost to
leftmost, i.e. longer domain parts first, as the greedy quantifier
does. -/
def domGo : List Char → List Char → List Char → Option (List Char × List Char)
  | _, [], _ => none
  | racc, c :: rdom, rest3 =>
    if c == '.' && !rdom.isEmpty then
      match tldTry (racc ++ rest3) with
      | some (tl, rest') => some (rdom.reverse ++ '.' :: tl, rest')
      | none => domGo (c :: racc) rdom rest3
    else domGo (c :: racc) rdom rest3

/-- Attempt to match the email pattern at the start of `s`, where `prev`
is the character immediately before `s` in the scanned text (`none` at
the start of the text).  Returns the matched characters and the input
after the match.  Mirrors Python backtracking: the word boundary is
checked against the surrounding characters, the local part is the
maximal run of local characters (shorter runs cannot be followed by the
at-sign, which is not a local character, so no backtracking arises
there), and the domain and top-level-domain splits backtrack from
greedy-longest. -/
def matchEmailAt (prev : Option Char) (s : List Char) : Option (List Char × List Char) :=
  match s with
  | [] => none
  | c :: _ =>
    if boundary prev (some c) then
      match s.dropWhile isLocalChar with
      | '@' :: rest2 =>
        if (s.takeWhile isLocalChar).isEmpty then none
        else
          match domGo [] (rest2.takeWhile isDomainChar).reverse
              (rest2.dropWhile isDomainChar) with
          | some (m2, rest') => some (s.takeWhile isLocalChar ++ '@' :: m2, rest')
          | none => none
      | _ => none
    else none

/-- The scan underlying `re.findall`: try the pattern at each position,
left to right, resuming after the end of each (always non-empty) match.
The fuel argument bounds the number of scan steps; every step consumes
at least one input character, so fuel equal to the input length is
enough. -/
def scanAux : Nat → Option Char → List Char → List (List Char)
  | 0, _, _ => []
  | _ + 1, _, [] => []
  | fuel + 1, prev, c :: rest =>
    match matchEmailAt prev (c :: rest) with
    | some (m, rest') => m :: scanAux fuel m.getLast? rest'
    | none => scanAux fuel (some c) rest

/-- `re.findall(email_pattern, s)`: all non-overlapping matches of the
shared email pattern in `s`, in order of occurrence. -/
def emailFindall (s : List Char) : List (List Char) := scanAux s.length none s

/-- The whitespace characters removed by Python `str.strip()`: space,
tab, newline, carriage return, vertical tab, form feed. -/
def isPySpace (c : Char) : Bool :=
  c == ' ' || c == '\t' || c == '\n' || c == '\r' || c == '\x0b' || c == '\x0c'

/-- Python `str.strip()`: drop leading and trailing whitespace. -/
def pyStrip (s : List Char) : List Char :=
  ((s.dropWhile isPySpace).reverse.dropWhile isPySpace).reverse

/-- Helper for `pyLines`; `acc` is the current line so far, reversed. -/
def pyLinesAux : List Char → List Char → List (List Char)
  | acc, [] => if acc.isEmpty then [] else [acc.reverse]
  | acc, c :: rest =>
    if c == '\n' then (acc.reverse ++ ['\n']) :: pyLinesAux [] rest
    else pyLinesAux (c :: acc) rest

/-- Python file line iteration (`for line in file`): each line keeps its
trailing newline; a final fragment without a newline is its own line; an
empty trailing fragment yields no line. -/
def pyLines (s : List Char) : List (List Char) := pyLinesAux [] s

/-- Python `str.split(",")`: split at every comma, keeping empty
pieces.  The result is always non-empty. -/
def splitComma : List Char → List (List Char)
  | [] => [[]]
  | c :: rest =>
    if c == ',' then [] :: splitComma rest
    else
      match splitComma rest with
      | [] => [[c]]
      | p :: ps => (c :: p) :: ps

/-- `", ".join(ms)`: join pieces with a comma and a space. -/
def joinCS : List (List Char) → List Char
  | [] => []
  | [m] => m
  | m :: ms => m ++ ',' :: ' ' :: joinCS ms

/-! ## The DataFrame rows of the calendar pipeline

`extract_email_addresses` and `clean_and_explode_emails` act on a
DataFrame whose rows carry the event columns, the `Attendees` text and
(after extraction) the `Emails` string.  The event columns other than
`Attendees` are bundled into an opaque payload, since the two functions
copy them through unchanged. -/

/-- A row before email extraction: event payload plus the `Attendees`
column. -/
structure RowA (α : Type) where
  payload : α
  attendees : List Char
deriving DecidableEq

/-- A row after email extraction: event payload, `Attendees` and the
`Emails` column. -/
structure RowAE (α : Type) where
  payload : α
  attendees : List Char
  emails : List Char
deriving DecidableEq

/-- `extract_email_addresses`: set each row's `Emails` column to the
", "-join of all pattern matches found in its `Attendees` text. -/
def extract_email_addresses {α : Type} (df : List (RowA α)) : List (RowAE α) :=
  df.map fun r => ⟨r.payload, r.attendees, joinCS (emailFindall r.attendees)⟩

/-- `clean_and_explode_emails`: keep the rows whose `Emails` string is
non-empty (`astype(bool)` truthiness), split `Emails` at commas and
explode to one row per piece, then strip whitespace from each piece. -/
def clean_and_explode_emails {α : Type} (df : List (RowAE α)) : List (RowAE α) :=
  (((df.filter fun r => !r.emails.isEmpty).flatMap fun r =>
      (splitComma r.emails).map fun e => RowAE.mk r.payload r.attendees e).map
    fun r => RowAE.mk r.payload r.attendees (pyStrip r.emails))

/-- `extract_emails_from_text`, inner loop: extend the accumulator with
the matches found in each file's content, in input order. -/
def extract_emails_from_text_go (acc : List (List Char)) :
    List (List Char) → List (List Char)
  | [] => acc
  | content :: rest => extract_emails_from_text_go (acc ++ emailFindall content) rest

/-- `extract_emails_from_text`: all pattern matches across the given
file contents, concatenated in input order, duplicates kept. -/
def extract_emails_from_text (contents : List (List Char)) : List (List Char) :=
  extract_emails_from_text_go [] contents

/-- `extract_emails_from_newline_separated_text`: for each line of the
file, strip whitespace and keep the stripped line exactly when
`re.match` of the email pattern succeeds on it (a match anchored at
position 0; the match need not cover the whole line). -/
def extract_emails_from_newline_separated_text (content : List Char) :
    List (List Char) :=
  (pyLines content).filterMap fun line =>
    if (matchEmailAt none (pyStrip line)).isSome then some (pyStrip line) else none

/-! ## The calendar loader `ics_to_dataframe`

The `icalendar` parsing itself is external; the embedding starts from
the parsed VEVENT components.  Timestamps live on one integer timeline:
a `datetime` is a clock reading `t` (an instant if the value is
timezone-aware, via its offset), a `date` is the instant of its
midnight. -/

/-- An attendee entry of a VEVENT: either a structured `vCalAddress`
(whose `CN` parameter is used as display text) or an opaque string. -/
inductive Attendee where
  | structured (cn : List Char)
  | raw (s : List Char)
deriving DecidableEq

/-- The display text the source appends for an attendee. -/
def Attendee.display : Attendee → List Char
  | .structured cn => cn
  | .raw s => s

/-- A DTSTART/DTEND value as returned by `icalendar`: a date with no
time-of-day, a naive datetime (clock reading, no timezone), or a
timezone-aware datetime (clock reading `t` whose UTC instant is
`t - offset`). -/
inductive DtValue where
  | dateOnly (d : Int)
  | naive (t : Int)
  | aware (t : Int) (offset : Int)
deriving DecidableEq

/-- `isinstance(x, datetime)`: true for naive and aware datetimes, false
for plain dates. -/
def DtValue.isDatetime : DtValue → Bool
  | .dateOnly _ => false
  | .naive _ => true
  | .aware _ _ => true

/-- Whether the value carries timezone information. -/
def DtValue.carriesTz : DtValue → Bool
  | .aware _ _ => true
  | _ => false

/-- `x.astimezone(pytz.utc)` for `localOffset` the process-local UTC
offset: an aware datetime is converted through its own offset; a naive
datetime is interpreted as process-local time and converted.  (The
source only applies this to datetimes; the date case is never
reached.) -/
def astimezoneUtc (localOffset : Int) : DtValue → DtValue
  | .dateOnly d => .dateOnly d
  | .naive t => .aware (t - localOffset) 0
  | .aware t off => .aware (t - off) 0

/-- The conversion step of `ics_to_dataframe`:
`if isinstance(x, datetime): x = x.astimezone(pytz.utc)`. -/
def convertDt (localOffset : Int) (v : DtValue) : DtValue :=
  if v.isDatetime then astimezoneUtc localOffset v else v

/-- `pd.to_datetime(x, utc=True)` on one value: the UTC timestamp; a
date becomes its midnight, a naive clock reading is localized as UTC. -/
def toUtcTimestamp : DtValue → Int
  | .dateOnly d => d
  | .naive t => t
  | .aware t off => t - off

/-- A parsed VEVENT component. -/
structure VEvent where
  summary : List Char
  attendeeList : List Attendee
  dtstart : DtValue
  dtend : Option DtValue
  location : Option (List Char)
  description : Option (List Char)
deriving DecidableEq

/-- A row of the DataFrame built by `ics_to_dataframe`, after the
`pd.to_datetime(..., utc=True)` normalization of the `Start` and `End`
columns; `start` is the UTC timestamp, which is also the value compared
by the date filter after `tz_localize(None)`. -/
structure EventRow where
  summary : List Char
  start : Int
  endTime : Option Int
  location : Option (List Char)
  description : Option (List Char)
  attendees : List Char
deriving DecidableEq

/-- Build one event row from a component: join attendee display texts
with ", ", convert datetime values to UTC, then normalize through
`pd.to_datetime(..., utc=True)`. -/
def mkEventRow (localOffset : Int) (c : VEvent) : EventRow :=
  { summary := c.summary
    start := toUtcTimestamp (convertDt localOffset c.dtstart)
    endTime := c.dtend.map fun e => toUtcTimestamp (convertDt localOffset e)
    location := c.location
    description := c.description
    attendees := joinCS (c.attendeeList.map Attendee.display) }

/-- `ics_to_dataframe`, from the parsed components onward: build the
rows, then normalize the `Start` column — which raises `KeyError` when
the DataFrame was built from an empty event list and has no columns —
and finally, when both bounds are given, keep the rows whose
timezone-stripped `Start` lies in the half-open bound interval. -/
def keyErrorStart : String := "KeyError: Start"

def ics_to_dataframe (comps : List VEvent) (localOffset : Int)
    (startDate endDate : Option Int) : Except String (List EventRow) :=
  if (comps.map (mkEventRow localOffset)).isEmpty then .error keyErrorStart
  else
    match startDate, endDate with
    | some s, some e =>
      .ok ((comps.map (mkEventRow localOffset)).filter fun r =>
        decide (s ≤ r.start ∧ r.start < e))
    | _, _ => .ok (comps.map (mkEventRow localOffset))

/-- The merge step of the CLI command `extract_emails`:
`set(u_session + calendar + minis)`, a set of unique address strings. -/
def merge_unique_emails (uSession calendar minis : List (List Char)) :
    Finset (List Char) :=
  (uSession ++ calendar ++ minis).toFinset

/-! ## Specification-side notions -/

/-- A string with the overall shape the email pattern describes: a
non-empty local part over the local class, an at-sign, a non-empty
domain part over the domain class, a dot, and a top-level domain of at
least two characters over its class. -/
def IsEmailMatch (m : List Char) : Prop :=
  ∃ loc dom tld : List Char,
    m = loc ++ '@' :: (dom ++ '.' :: tld) ∧
    loc ≠ [] ∧ (∀ c ∈ loc, isLocalChar c = true) ∧
    dom ≠ [] ∧ (∀ c ∈ dom, isDomainChar c = true) ∧
    2 ≤ tld.length ∧ (∀ c ∈ tld, isTldChar c = true)

/-- An ASCII letter, for the specification's phrase "two-or-more
letters" describing the final segment of the pattern. -/
def isAsciiLetter (c : Char) : Bool :=
  ('A' ≤ c && c ≤ 'Z') || ('a' ≤ c && c ≤ 'z')

/-- The email shape as the specification words it, with the final
segment made of letters only — stricter than the source's class, which
also admits the literal bar. -/
def IsEmailMatchLetters (m : List Char) : Prop :=
  ∃ loc dom tld : List Char,
    m = loc ++ '@' :: (dom ++ '.' :: tld) ∧
    loc ≠ [] ∧ (∀ c ∈ loc, isLocalChar c = true) ∧
    dom ≠ [] ∧ (∀ c ∈ dom, isDomainChar c = true) ∧
    2 ≤ tld.length ∧ (∀ c ∈ tld, isAsciiLetter c = true)

/-- `SplitsInto s ms`: the pieces of `ms` occur in `s` as contiguous
substrings, in order and without overlap — `s` interleaves gap segments
with the pieces. -/
inductive SplitsInto : List Char → List (List Char) → Prop
  | nil (g : List Char) : SplitsInto g []
  | cons (g m rest : List Char) (ms : List (List Char)) :
      SplitsInto rest ms → SplitsInto (g ++ (m ++ rest)) (m :: ms)

/-- The Email-Set Cleaner as the specification words it: drop every
record whose `Emails` field is empty, then emit one output record per
comma-separated substring with surrounding whitespace stripped. -/
def cleanExplodeSpec {α : Type} (df : List (RowAE α)) : List (RowAE α) :=
  (df.filter fun r => !r.emails.isEmpty).flatMap fun r =>
    (splitComma r.emails).map fun e => RowAE.mk r.payload r.attendees (pyStrip e)

/-- The newline-delimited extractor as the specification words it: strip
each line, keep exactly the stripped lines on which the pattern matches
at position 0. -/
def newlineExtractSpec (content : List Char) : List (List Char) :=
  ((pyLines content).map pyStrip).filter fun e => (matchEmailAt none e).isSome

/-- Modelled from the spec: the "calendar-local" clock reading of a
start value — for an aware datetime the reading in its own timezone,
not the UTC instant. -/
def localClock : DtValue → Int
  | .dateOnly d => d
  | .naive t => t
  | .aware t _ => t

/-! ## Soundness of the matcher -/

theorem tldGo_sound {rrun rest tl rest' : List Char}
    (hall : ∀ c ∈ rrun, isTldChar c = true)
    (h : tldGo rrun rest = some (tl, rest')) :
    tl ++ rest' = rrun.reverse ++ rest ∧ 2 ≤ tl.length ∧
      ∀ c ∈ tl, isTldChar c = true := by
  induction rrun generalizing rest with
  | nil => simp [tldGo] at h
  | cons c rrun ih =>
    rw [tldGo] at h
    split at h
    case isTrue hg =>
      simp only [Option.some.injEq, Prod.mk.injEq] at h
      obtain ⟨rfl, rfl⟩ := h
      have h2 : 2 ≤ rrun.length + 1 := by
        have := (Bool.and_eq_true _ _).mp hg
        exact of_decide_eq_true this.1
      refine ⟨rfl, by simpa using h2, ?_⟩
      intro x hx
      exact hall x (List.mem_reverse.mp hx)
    case isFalse =>
      have := ih (fun x hx => hall x (List.mem_cons_of_mem c hx)) h
      refine ⟨?_, this.2.1, this.2.2⟩
      rw [this.1, List.reverse_cons, List.append_assoc, List.singleton_append]

theorem tldTry_sound {s tl rest' : List Char}
    (h : tldTry s = some (tl, rest')) :
    tl ++ rest' = s ∧ 2 ≤ tl.length ∧ ∀ c ∈ tl, isTldChar c = true := by
  have hall : ∀ c ∈ (s.takeWhile isTldChar).reverse, isTldChar c = true := by
    intro c hc
    exact List.mem_takeWhile_imp (List.mem_reverse.mp hc)
  obtain ⟨heq, h2, hmem⟩ := tldGo_sound hall h
  refine ⟨?_, h2, hmem⟩
  rw [heq, List.reverse_reverse, List.takeWhile_append_dropWhile]

theorem domGo_sound {racc rdom rest3 m2 rest' : List Char}
    (hall : ∀ c ∈ rdom, isDomainChar c = true)
    (h : domGo racc rdom rest3 = some (m2, rest')) :
    m2 ++ rest' = rdom.reverse ++ (racc ++ rest3) ∧
      ∃ pre tld, m2 = pre ++ '.' :: tld ∧ pre ≠ [] ∧
        (∀ c ∈ pre, isDomainChar c = true) ∧ 2 ≤ tld.length ∧
        (∀ c ∈ tld, isTldChar c = true) := by
  induction rdom generalizing racc with
  | nil => simp [domGo] at h
  | cons c rdom ih =>
    rw [domGo] at h
    split at h
    case isTrue hg =>
      obtain ⟨hc, hne⟩ := (Bool.and_eq_true _ _).mp hg
      have hc' : c = '.' := by simpa using hc
      have hne' : rdom ≠ [] := by
        simpa using hne
      split at h
      case h_1 tl rest'' heq =>
        simp only [Option.some.injEq, Prod.mk.injEq] at h
        obtain ⟨rfl, rfl⟩ := h
        obtain ⟨tleq, tl2, tlall⟩ := tldTry_sound heq
        constructor
        · subst hc'
          simp only [List.reverse_cons, List.append_assoc, List.singleton_append,
            List.cons_append, List.nil_append]
          rw [tleq]
        · refine ⟨rdom.reverse, tl, rfl, by simpa using hne', ?_, tl2, tlall⟩
          intro x hx
          exact hall x (List.mem_cons_of_mem c (List.mem_reverse.mp hx))
      case h_2 =>
        have := ih (fun x hx => hall x (List.mem_cons_of_mem c hx)) h
        refine ⟨?_, this.2⟩
        rw [this.1, List.reverse_cons, List.append_assoc, List.singleton_append,
          List.cons_append]
    case isFalse =>
      have := ih (fun x hx => hall x (List.mem_cons_of_mem c hx)) h
      refine ⟨?_, this.2⟩
      rw [this.1, List.reverse_cons, List.append_assoc, List.singleton_append,
        List.cons_append]

theorem matchEmailAt_sound {prev : Option Char} {s m rest' : List Char}
    (h : matchEmailAt prev s = some (m, rest')) :
    m ++ rest' = s ∧ IsEmailMatch m := by
  cases s with
  | nil => simp [matchEmailAt] at h
  | cons c s' =>
    rw [matchEmailAt] at h
    split at h
    case isTrue =>
      split at h
      case h_1 rest2 heq =>
        split at h
        case isTrue => simp at h
        case isFalse hloc =>
          split at h
          case h_1 m2 rest'' heq2 =>
            simp only [Option.some.injEq, Prod.mk.injEq] at h
            obtain ⟨rfl, rfl⟩ := h
            obtain ⟨h1, pre, tld, hm2, hpre, hpreall, ht2, htall⟩ :=
              domGo_sound (fun x hx => List.mem_takeWhile_imp
                (List.mem_reverse.mp hx)) heq2
            rw [List.reverse_reverse, List.nil_append,
              List.takeWhile_append_dropWhile] at h1
            constructor
            · simp only [List.append_assoc, List.cons_append]
              rw [h1, ← heq, List.takeWhile_append_dropWhile]
            · refine ⟨(c :: s').takeWhile isLocalChar, pre, tld, by rw [hm2],
                ?_, ?_, hpre, hpreall, ht2, htall⟩
              · simpa using hloc
              · intro x hx
                exact List.mem_takeWhile_imp hx
          case h_2 => simp at h
      case h_2 => simp at h
    case isFalse => simp at h

/-! ## Soundness of the findall scan -/

theorem SplitsInto.cons_left {s : List Char} {ms : List (List Char)} (c : Char)
    (h : SplitsInto s ms) : SplitsInto (c :: s) ms := by
  cases h with
  | nil => exact .nil _
  | cons g m rest ms h' =>
    have h2 := SplitsInto.cons (c :: g) m rest ms h'
    simpa using h2

theorem scanAux_splits : ∀ (fuel : Nat) (prev : Option Char) (s : List Char),
    SplitsInto s (scanAux fuel prev s) := by
  intro fuel
  induction fuel with
  | zero => intro prev s; exact .nil s
  | succ fuel ih =>
    intro prev s
    cases s with
    | nil => exact .nil []
    | cons c s' =>
      rw [scanAux]
      cases h : matchEmailAt prev (c :: s') with
      | none => exact (ih (some c) s').cons_left c
      | some p =>
        obtain ⟨m, rest'⟩ := p
        obtain ⟨heq, -⟩ := matchEmailAt_sound h
        have h2 := SplitsInto.cons [] m rest' _ (ih m.getLast? rest')
        rw [List.nil_append, heq] at h2
        exact h2

theorem scanAux_matches : ∀ (fuel : Nat) (prev : Option Char) (s m : List Char),
    m ∈ scanAux fuel prev s → IsEmailMatch m := by
  intro fuel
  induction fuel with
  | zero => intro prev s m h; simp [scanAux] at h
  | succ fuel ih =>
    intro prev s m h
    cases s with
    | nil => simp [scanAux] at h
    | cons c s' =>
      rw [scanAux] at h
      cases he : matchEmailAt prev (c :: s') with
      | none => rw [he] at h; exact ih (some c) s' m h
      | some p =>
        obtain ⟨m', rest'⟩ := p
        rw [he] at h
        rcases List.mem_cons.mp h with rfl | h2
        · exact (matchEmailAt_sound he).2
        · exact ih m'.getLast? rest' m h2

theorem emailFindall_splits (s : List Char) : SplitsInto s (emailFindall s) :=
  scanAux_splits s.length none s

theorem emailFindall_matches {s m : List Char} (h : m ∈ emailFindall s) :
    IsEmailMatch m :=
  scanAux_matches s.length none s m h

/-! ## Character-class facts and whitespace stripping -/

theorem pySpace_cases {c : Char} (h : isPySpace c = true) :
    c = ' ' ∨ c = '\t' ∨ c = '\n' ∨ c = '\r' ∨ c = '\x0b' ∨ c = '\x0c' := by
  simp only [isPySpace, Bool.or_eq_true, beq_iff_eq] at h
  tauto

theorem localChar_clean {c : Char} (h : isLocalChar c = true) :
    ¬c = ',' ∧ isPySpace c = false := by
  refine ⟨?_, ?_⟩
  · rintro rfl; exact absurd h (by decide)
  · cases hs : isPySpace c
    · rfl
    · rcases pySpace_cases hs with rfl | rfl | rfl | rfl | rfl | rfl <;>
        exact absurd h (by decide)

theorem domainChar_clean {c : Char} (h : isDomainChar c = true) :
    ¬c = ',' ∧ isPySpace c = false := by
  refine ⟨?_, ?_⟩
  · rintro rfl; exact absurd h (by decide)
  · cases hs : isPySpace c
    · rfl
    · rcases pySpace_cases hs with rfl | rfl | rfl | rfl | rfl | rfl <;>
        exact absurd h (by decide)

theorem tldChar_clean {c : Char} (h : isTldChar c = true) :
    ¬c = ',' ∧ isPySpace c = false := by
  refine ⟨?_, ?_⟩
  · rintro rfl; exact absurd h (by decide)
  · cases hs : isPySpace c
    · rfl
    · rcases pySpace_cases hs with rfl | rfl | rfl | rfl | rfl | rfl <;>
        exact absurd h (by decide)

theorem emailMatch_clean {m : List Char} (h : IsEmailMatch m) :
    m ≠ [] ∧ ∀ c ∈ m, ¬c = ',' ∧ isPySpace c = false := by
  obtain ⟨loc, dom, tld, rfl, hl, hlall, hd, hdall, ht2, htall⟩ := h
  constructor
  · cases loc with
    | nil => exact absurd rfl hl
    | cons a l => simp
  · intro c hc
    simp only [List.mem_append, List.mem_cons] at hc
    rcases hc with hc | rfl | hc | rfl | hc
    · exact localChar_clean (hlall c hc)
    · exact ⟨by decide, by decide⟩
    · exact domainChar_clean (hdall c hc)
    · exact ⟨by decide, by decide⟩
    · exact tldChar_clean (htall c hc)

theorem dropWhile_of_forall {p : Char → Bool} {l : List Char}
    (h : ∀ c ∈ l, p c = false) : l.dropWhile p = l := by
  cases l with
  | nil => rfl
  | cons c l => simp [List.dropWhile_cons, h c (List.mem_cons_self c l)]

theorem dropWhile_append_of_forall {p : Char → Bool} {a : List Char}
    (b : List Char) (h : ∀ c ∈ a, p c = true) :
    (a ++ b).dropWhile p = b.dropWhile p := by
  induction a with
  | nil => rfl
  | cons c a ih =>
    rw [List.cons_append, List.dropWhile_cons, h c (List.mem_cons_self c a)]
    exact ih fun x hx => h x (List.mem_cons_of_mem c hx)

theorem pyStrip_clean {m : List Char} (h : ∀ c ∈ m, isPySpace c = false) :
    pyStrip m = m := by
  unfold pyStrip
  rw [dropWhile_of_forall h,
    dropWhile_of_forall fun c hc => h c (List.mem_reverse.mp hc),
    List.reverse_reverse]

theorem pyStrip_space_lead {sp m : List Char}
    (hsp : ∀ c ∈ sp, isPySpace c = true)
    (hm : ∀ c ∈ m, isPySpace c = false) : pyStrip (sp ++ m) = m := by
  unfold pyStrip
  rw [dropWhile_append_of_forall m hsp, dropWhile_of_forall hm,
    dropWhile_of_forall fun c hc => hm c (List.mem_reverse.mp hc),
    List.reverse_reverse]

/-! ## Comma splitting and joining -/

theorem splitComma_no_comma {a : List Char} (h : ∀ c ∈ a, ¬c = ',') :
    splitComma a = [a] := by
  induction a with
  | nil => rfl
  | cons c a ih =>
    have hc : (c == ',') = false := by
      simp only [beq_eq_false_iff_ne, ne_eq]
      exact h c (List.mem_cons_self c a)
    rw [splitComma, hc]
    simp [ih fun x hx => h x (List.mem_cons_of_mem c hx)]

theorem splitComma_append {a b : List Char} (h : ∀ c ∈ a, ¬c = ',') :
    splitComma (a ++ ',' :: b) = a :: splitComma b := by
  induction a with
  | nil => simp [splitComma]
  | cons c a ih =>
    have hc : (c == ',') = false := by
      simp only [beq_eq_false_iff_ne, ne_eq]
      exact h c (List.mem_cons_self c a)
    rw [List.cons_append, splitComma, hc]
    simp [ih fun x hx => h x (List.mem_cons_of_mem c hx)]

theorem joinCS_ne_nil {m : List Char} (ms : List (List Char)) (hm : m ≠ []) :
    joinCS (m :: ms) ≠ [] := by
  cases ms with
  | nil => simpa [joinCS] using hm
  | cons m' ms => simp [joinCS]

/-- Splitting the ", "-join of clean non-empty pieces at commas and
stripping recovers the pieces, for any all-space junk prefix. -/
theorem split_join_strip :
    ∀ ms : List (List Char), ms ≠ [] →
    (∀ m ∈ ms, m ≠ [] ∧ ∀ c ∈ m, ¬c = ',' ∧ isPySpace c = false) →
    ∀ sp : List Char, (∀ c ∈ sp, isPySpace c = true ∧ ¬c = ',') →
    (splitComma (sp ++ joinCS ms)).map pyStrip = ms := by
  intro ms
  induction ms with
  | nil => intro h; exact absurd rfl h
  | cons m ms ih =>
    intro _ hall sp hsp
    have hm := hall m (List.mem_cons_self m ms)
    have hnc : ∀ c ∈ sp ++ m, ¬c = ',' := by
      intro c hc
      rcases List.mem_append.mp hc with hc | hc
      · exact (hsp c hc).2
      · exact (hm.2 c hc).1
    have hstrip : pyStrip (sp ++ m) = m :=
      pyStrip_space_lead (fun c hc => (hsp c hc).1) fun c hc => (hm.2 c hc).2
    cases ms with
    | nil =>
      show (splitComma (sp ++ m)).map pyStrip = [m]
      rw [splitComma_no_comma hnc]
      simpa using hstrip
    | cons m' ms' =>
      show (splitComma (sp ++ (m ++ ',' :: ' ' :: joinCS (m' :: ms')))).map
          pyStrip = m :: m' :: ms'
      rw [← List.append_assoc, splitComma_append hnc, List.map_cons, hstrip]
      have htail := ih (List.cons_ne_nil m' ms')
        (fun x hx => hall x (List.mem_cons_of_mem m hx)) [' ']
        (by intro c hc; simp at hc; subst hc; exact ⟨rfl, by decide⟩)
      simpa using htail

/-! ## The calendar email pipeline explodes back into the matches -/

theorem extract_append {α : Type} (df₁ df₂ : List (RowA α)) :
    extract_email_addresses (df₁ ++ df₂) =
      extract_email_addresses df₁ ++ extract_email_addresses df₂ := by
  simp [extract_email_addresses]

theorem clean_and_explode_append {α : Type} (df₁ df₂ : List (RowAE α)) :
    clean_and_explode_emails (df₁ ++ df₂) =
      clean_and_explode_emails df₁ ++ clean_and_explode_emails df₂ := by
  simp [clean_and_explode_emails, List.filter_append, List.flatMap_append,
    List.map_append]

theorem clean_explode_single {α : Type} (r : RowA α) :
    clean_and_explode_emails (extract_email_addresses [r]) =
      (emailFindall r.attendees).map fun m =>
        RowAE.mk r.payload r.attendees m := by
  cases hms : emailFindall r.attendees with
  | nil =>
    simp [extract_email_addresses, clean_and_explode_emails, hms, joinCS]
  | cons m ms =>
    have hall : ∀ x ∈ m :: ms,
        x ≠ [] ∧ ∀ c ∈ x, ¬c = ',' ∧ isPySpace c = false := by
      intro x hx
      exact emailMatch_clean (emailFindall_matches (hms ▸ hx))
    have hne : joinCS (m :: ms) ≠ [] :=
      joinCS_ne_nil ms (hall m (List.mem_cons_self m ms)).1
    have hrt : (splitComma (joinCS (m :: ms))).map pyStrip = m :: ms := by
      have := split_join_strip (m :: ms) (List.cons_ne_nil m ms) hall []
        (by intro c hc; simp at hc)
      simpa using this
    simp only [extract_email_addresses, List.map_cons, List.map_nil,
      clean_and_explode_emails, hms]
    rw [List.filter_cons_of_pos (by simpa using hne)]
    simp only [List.filter_nil, List.flatMap_cons, List.flatMap_nil,
      List.append_nil, List.map_map]
    calc ((splitComma (joinCS (m :: ms))).map
            ((fun r' => RowAE.mk r'.payload r'.attendees (pyStrip r'.emails)) ∘
              fun e => RowAE.mk r.payload r.attendees e))
        = ((splitComma (joinCS (m :: ms))).map pyStrip).map fun e =>
            RowAE.mk r.payload r.attendees e := by
          rw [List.map_map]
          rfl
      _ = (m :: ms).map fun e => RowAE.mk r.payload r.attendees e := by
          rw [hrt]

theorem clean_explode_extract {α : Type} (df : List (RowA α)) :
    clean_and_explode_emails (extract_email_addresses df) =
      df.flatMap fun r => (emailFindall r.attendees).map fun m =>
        RowAE.mk r.payload r.attendees m := by
  induction df with
  | nil => rfl
  | cons r df ih =>
    have hsplit : r :: df = [r] ++ df := rfl
    rw [hsplit, extract_append, clean_and_explode_append, ih,
      clean_explode_single, List.flatMap_append]
    simp

/-! ## Remaining helper lemmas -/

theorem filterMap_if {β γ : Type} (g : β → γ) (p : γ → Bool) :
    ∀ l : List β,
      (l.filterMap fun x => if p (g x) then some (g x) else none) =
        (l.map g).filter p := by
  intro l
  induction l with
  | nil => rfl
  | cons x l ih =>
    rw [List.filterMap_cons, List.map_cons, List.filter_cons]
    cases hp : p (g x) <;> simp [hp, ih]

theorem pyLinesAux_no_newline : ∀ (l acc : List Char), '\n' ∉ l →
    (acc ≠ [] ∨ l ≠ []) → pyLinesAux acc l = [acc.reverse ++ l] := by
  intro l
  induction l with
  | nil =>
    intro acc h hne
    have hacc : acc ≠ [] := by
      rcases hne with h' | h'
      · exact h'
      · exact absurd rfl h'
    have hie : acc.isEmpty = false := by simpa using hacc
    simp [pyLinesAux, hie]
  | cons c l ih =>
    intro acc h hne
    have hc : ¬(c == '\n') = true := by
      simp only [beq_iff_eq]
      intro hcc
      exact h (by simp [hcc])
    rw [pyLinesAux, if_neg hc,
      ih (c :: acc) (fun hm => h (List.mem_cons_of_mem c hm))
        (Or.inl (List.cons_ne_nil c acc))]
    simp

theorem pyLines_single {l : List Char} (h : '\n' ∉ l) (hne : l ≠ []) :
    pyLines l = [l] := by
  unfold pyLines
  rw [pyLinesAux_no_newline l [] h (Or.inr hne)]
  simp

/-! ## The claims -/

/-- Claim C1, amended: for every calendar DataFrame, the pipeline
`extract_email_addresses` followed by `clean_and_explode_emails` emits
exactly one record per regex match of the `Attendees` text, carrying
that match verbatim (the ", "-join, comma-split and strip round-trip
recovers the matched substrings), and every emitted address has the
local-at-domain-dot-tld shape of the pattern.  (The original claim's
further assertion — that every emitted address itself matches the
pattern anchored at its start — is refuted by the counterexample.) -/
theorem claim_c1_roundtrip : ∀ (α : Type) (df : List (RowA α)),
    clean_and_explode_emails (extract_email_addresses df) =
      (df.flatMap fun r => (emailFindall r.attendees).map fun m =>
        RowAE.mk r.payload r.attendees m) ∧
    ∀ r' ∈ clean_and_explode_emails (extract_email_addresses df),
      IsEmailMatch r'.emails := by
  intro α df
  refine ⟨clean_explode_extract df, ?_⟩
  intro r' hr'
  rw [clean_explode_extract df] at hr'
  simp only [List.mem_flatMap, List.mem_map] at hr'
  obtain ⟨r, -, m, hm, rfl⟩ := hr'
  exact emailFindall_matches hm

/-- Claim C1 witness: the amended theorem applied to a one-row frame. -/
theorem claim_c1_roundtrip_witness : IsEmailMatch (("a@b.com").toList) := by
  have h := (claim_c1_roundtrip Unit [RowA.mk () (("a@b.com").toList)]).2
  exact h (RowAE.mk () (("a@b.com").toList) (("a@b.com").toList)) (by decide)

/-- Claim C1 counterexample: on the attendees text "a@b.cc%d@e.ff" the
pipeline emits the record "%d@e.ff" — one of the regex matches — yet
that address does not match the pattern at position 0 (its leading
percent sign sits at a non-boundary), so pattern-match does not hold for
every exploded record. -/
theorem claim_c1_counterexample :
    (clean_and_explode_emails (extract_email_addresses
        [RowA.mk () (("a@b.cc%d@e.ff").toList)])).map (fun r => r.emails) =
      [("a@b.cc").toList, ("%d@e.ff").toList] ∧
    matchEmailAt none (("%d@e.ff").toList) = none := by
  exact ⟨by decide, by decide⟩

/-- Claim C2: the newline-delimited extractor equals, on every input,
the per-line strip-then-validate pass the specification describes (a
line is accepted exactly when the pattern matches its stripped form at
position 0, and rejected lines are skipped, never an error), and on the
concrete input of the spec it yields exactly the two valid addresses in
line order. -/
theorem claim_c2_newline :
    (∀ content : List Char,
      extract_emails_from_newline_separated_text content =
        newlineExtractSpec content) ∧
    extract_emails_from_newline_separated_text
        (("a@b.com\nnot-an-email\n  c@d.org  \n").toList) =
      [("a@b.com").toList, ("c@d.org").toList] := by
  constructor
  · intro content
    unfold extract_emails_from_newline_separated_text newlineExtractSpec
    exact filterMap_if pyStrip (fun e => (matchEmailAt none e).isSome)
      (pyLines content)
  · decide

/-- Claim C3, amended: with both bounds given, `ics_to_dataframe` keeps
exactly the events whose UTC-converted, timezone-stripped start
timestamp falls within the half-open interval, which for date-only
starts is the calendar date (the four concrete bound examples hold);
for timezone-aware events the comparison uses the UTC instant, not the
calendar-local date refuted in the counterexample. -/
theorem claim_c3_filter (comps : List VEvent) (off s e : Int)
    (hne : comps ≠ []) :
    ics_to_dataframe comps off (some s) (some e) =
      Except.ok ((comps.map (mkEventRow off)).filter fun r =>
        decide (s ≤ r.start ∧ r.start < e)) ∧
    ∀ r, r ∈ (comps.map (mkEventRow off)).filter
        (fun r => decide (s ≤ r.start ∧ r.start < e)) ↔
      r ∈ comps.map (mkEventRow off) ∧ s ≤ r.start ∧ r.start < e := by
  constructor
  · have hmap : (comps.map (mkEventRow off)).isEmpty = false := by
      cases comps with
      | nil => exact absurd rfl hne
      | cons _ _ => rfl
    simp [ics_to_dataframe, hmap]
  · intro r
    simp only [List.mem_filter, decide_eq_true_iff]

/-- Claim C3 witness: the four concrete examples — with bounds
2023-08-01 (inclusive) and 2024-01-01 (exclusive), events starting
2023-07-31 and 2024-01-01 are dropped and events starting 2023-08-01
and 2023-12-31 are kept. -/
theorem claim_c3_filter_witness :
    ics_to_dataframe
        [⟨("e1").toList, [], .dateOnly 20230731, none, none, none⟩,
         ⟨("e2").toList, [], .dateOnly 20230801, none, none, none⟩,
         ⟨("e3").toList, [], .dateOnly 20231231, none, none, none⟩,
         ⟨("e4").toList, [], .dateOnly 20240101, none, none, none⟩] 0
        (some 20230801) (some 20240101) =
      Except.ok
        [⟨("e2").toList, 20230801, none, none, none, []⟩,
         ⟨("e3").toList, 20231231, none, none, none, []⟩] := by
  have h := (claim_c3_filter
    [⟨("e1").toList, [], .dateOnly 20230731, none, none, none⟩,
     ⟨("e2").toList, [], .dateOnly 20230801, none, none, none⟩,
     ⟨("e3").toList, [], .dateOnly 20231231, none, none, none⟩,
     ⟨("e4").toList, [], .dateOnly 20240101, none, none, none⟩] 0
    20230801 20240101 (by simp)).1
  rw [h]
  rfl

/-- Claim C3 counterexample: an aware event one day long in bounds by
its calendar-local clock (its local start reading lies inside the
bounds) is nonetheless dropped, because the filter compares the
UTC-converted value: the start date used is not the calendar-local
date. -/
theorem claim_c3_local_date_ce :
    ics_to_dataframe
        [⟨("ev").toList, [], .aware 100060 120, none, none, none⟩] 0
        (some 100000) (some 101440) = Except.ok [] ∧
    100000 ≤ localClock (DtValue.aware 100060 120) ∧
    localClock (DtValue.aware 100060 120) < 101440 := by
  refine ⟨rfl, by decide, by decide⟩

/-- Claim C4, amended: the conversion step of `ics_to_dataframe`
converts a value to UTC exactly when it is a datetime (has a
time-of-day): an aware datetime through its own offset, a naive
datetime interpreted in the process-local timezone; a date-only value
is left unconverted. -/
theorem claim_c4_convert : ∀ (off d t o : Int),
    convertDt off (DtValue.dateOnly d) = DtValue.dateOnly d ∧
    convertDt off (DtValue.naive t) = DtValue.aware (t - off) 0 ∧
    convertDt off (DtValue.aware t o) = DtValue.aware (t - o) 0 :=
  fun _ _ _ _ => ⟨rfl, rfl, rfl⟩

/-- Claim C4 counterexample: a naive datetime carries no timezone
information, yet the conversion step changes it (interpreting it in the
process-local timezone), so conversion does not happen exactly when the
value carries timezone information. -/
theorem claim_c4_naive_ce :
    convertDt 60 (DtValue.naive 100) ≠ DtValue.naive 100 ∧
    DtValue.carriesTz (DtValue.naive 100) = false :=
  ⟨by decide, rfl⟩

/-- Claim C5, amended: `extract_email_addresses` sets each row's
`Emails` field to the ", "-join of the pattern matches of its
`Attendees` text, and those matches are non-overlapping in-order
substrings of the text, each of the pattern's
local-at-domain-dot-tld shape over its character classes — where the
final segment's class, written in the source as A-Z, bar, a-z, admits
the literal bar as well as letters.  (The original claim's
"two-or-more letters" is refuted by the counterexample.) -/
theorem claim_c5_emails_join : ∀ (α : Type) (df : List (RowA α)),
    (extract_email_addresses df = df.map fun r =>
      RowAE.mk r.payload r.attendees (joinCS (emailFindall r.attendees))) ∧
    ∀ s : List Char, SplitsInto s (emailFindall s) ∧
      ∀ m ∈ emailFindall s, IsEmailMatch m :=
  fun _ _ =>
    ⟨rfl, fun s =>
      ⟨emailFindall_splits s, fun _ hm => emailFindall_matches hm⟩⟩

/-- Claim C5 witness: the theorem applied at a concrete attendees
text. -/
theorem claim_c5_emails_join_witness : IsEmailMatch (("x.a@b.cc").toList) := by
  have h := ((claim_c5_emails_join Unit []).2 (("x.a@b.cc").toList)).2
  exact h (("x.a@b.cc").toList) (by decide)

/-- Claim C5 counterexample: on attendees "a@b.c|d" the extractor emits
the single match "a@b.c|d" as the row's `Emails`, yet that match admits
no decomposition whose final segment is two-or-more letters — the bar
character sits past the last dot and the source's class admits it, so
matches need not end in letters only. -/
theorem claim_c5_tld_bar_ce :
    extract_email_addresses [RowA.mk () (("a@b.c|d").toList)] =
      [RowAE.mk () (("a@b.c|d").toList) (("a@b.c|d").toList)] ∧
    ¬IsEmailMatchLetters (("a@b.c|d").toList) := by
  constructor
  · decide
  · rintro ⟨loc, dom, tld, heq, -, hlall, -, hdall, -, htall⟩
    have hbar : '|' ∈ ("a@b.c|d").toList := by decide
    rw [heq] at hbar
    simp only [List.mem_append, List.mem_cons] at hbar
    rcases hbar with h | h | h | h | h
    · exact absurd (hlall '|' h) (by decide)
    · exact absurd h (by decide)
    · exact absurd (hdall '|' h) (by decide)
    · exact absurd h (by decide)
    · exact absurd (htall '|' h) (by decide)

/-- Claim C6: `clean_and_explode_emails` equals the specification's
description — drop every record with empty `Emails`, then emit one
record per comma-separated, whitespace-stripped substring — and the
concrete record with Emails "a@b.com, c@d.org" explodes into exactly
the two trimmed Email records. -/
theorem claim_c6_clean_explode :
    (∀ (α : Type) (df : List (RowAE α)),
      clean_and_explode_emails df = cleanExplodeSpec df) ∧
    clean_and_explode_emails
        [RowAE.mk () (("x").toList) (("a@b.com, c@d.org").toList)] =
      [RowAE.mk () (("x").toList) (("a@b.com").toList),
       RowAE.mk () (("x").toList) (("c@d.org").toList)] := by
  constructor
  · intro α df
    unfold clean_and_explode_emails cleanExplodeSpec
    rw [List.map_flatMap]
    congr 1
    funext r
    rw [List.map_map]
    rfl
  · decide

/-- Claim C7: a line whose stripped form matches the pattern at
position 0 but continues with extra text is accepted whole: the
extractor appends the entire stripped line, not just the matched
prefix. -/
theorem claim_c7_whole_line (l : List Char)
    (hm : (matchEmailAt none (pyStrip l)).isSome = true)
    (hn : '\n' ∉ l) :
    extract_emails_from_newline_separated_text l = [pyStrip l] := by
  have hne : l ≠ [] := by
    rintro rfl
    exact absurd hm (by decide)
  unfold extract_emails_from_newline_separated_text
  rw [pyLines_single hn hne]
  simp [List.filterMap_cons, hm]

/-- Claim C7 witness: the line "a@b.com extra text" is accepted as-is,
whole. -/
theorem claim_c7_whole_line_witness :
    extract_emails_from_newline_separated_text
        (("a@b.com extra text").toList) =
      [("a@b.com extra text").toList] := by
  have h := claim_c7_whole_line (("a@b.com extra text").toList)
    (by decide) (by decide)
  rw [h]
  decide

/-- Claim C8: the free-form extractor returns the concatenation, in
input order with duplicates permitted, of the pattern matches of each
blob, and on the concrete blob of the spec it yields exactly the two
addresses, without the trailing period. -/
theorem claim_c8_freeform :
    (∀ contents : List (List Char),
      extract_emails_from_text contents = contents.flatMap emailFindall) ∧
    extract_emails_from_text [("Contact: a@b.com, also c@d.org.").toList] =
      [("a@b.com").toList, ("c@d.org").toList] := by
  have hgo : ∀ cs acc : List (List Char),
      extract_emails_from_text_go acc cs = acc ++ cs.flatMap emailFindall := by
    intro cs
    induction cs with
    | nil => intro acc; simp [extract_emails_from_text_go]
    | cons c cs ih =>
      intro acc
      rw [extract_emails_from_text_go, ih]
      simp
  constructor
  · intro contents
    rw [extract_emails_from_text, hgo]
    simp
  · decide

/-- Claim C9: the merge step is membership-wise the concatenation of
the three source lists reduced to a set of unique strings,
deduplication is idempotent (merging a list with itself adds nothing),
and the concrete three-source merge has exactly the three distinct
addresses. -/
theorem claim_c9_merge :
    (∀ u cal minis : List (List Char), ∀ x,
      x ∈ merge_unique_emails u cal minis ↔ x ∈ u ++ cal ++ minis) ∧
    (∀ l : List (List Char),
      merge_unique_emails l l [] = merge_unique_emails l [] []) ∧
    merge_unique_emails [("e@f.com").toList] [("a@b.com").toList]
        [("a@b.com").toList, ("c@d.org").toList] =
      {("a@b.com").toList, ("c@d.org").toList, ("e@f.com").toList} ∧
    (merge_unique_emails [("e@f.com").toList] [("a@b.com").toList]
        [("a@b.com").toList, ("c@d.org").toList]).card = 3 := by
  refine ⟨?_, ?_, by decide, by decide⟩
  · intro u cal minis x
    exact List.mem_toFinset
  · intro l
    ext x
    simp [merge_unique_emails]

/-- Claim C10: on a calendar with zero VEVENT components,
`ics_to_dataframe` raises the missing-column error for `Start` (the
DataFrame built from an empty event list has no columns), rather than
returning an empty sequence of events. -/
theorem claim_c10_empty_calendar : ∀ (off : Int) (sd ed : Option Int),
    ics_to_dataframe [] off sd ed = Except.error keyErrorStart :=
  fun _ _ _ => rfl

end EmailExtractor
